import Mathlib

/-!
A shallow embedding of `src/src/lib.rs` of the `windowed` crate: a layered
text-surface compositor.  `Window` is a positioned grid of cells, `Container`
overlays windows into a sparse buffer keyed by absolute position and records
which positions were pushed to the change list during `refresh`.

Modelling conventions:
* `Point` (from the external `point` crate) is a pair of `i32` coordinates,
  modelled as unbounded integers; every claim involves only small grids, where
  `i32` arithmetic is exact.
* Rust's `HashMap<Point, T>` is modelled as an association list with the same
  observable map interface (`get` / `insert` / `clear`); `insert` replaces the
  value of an existing key in place and appends a fresh key at the end.
* `Vec` is a `List`; `Vec::push` appends at the end.
* Fallible code (slice indexing / `Option::unwrap` in `outline_with`) is
  modelled with `Option`.
-/

namespace Windowed

/-- `Point` of the external `point` crate: a 2D `i32` coordinate. -/
structure Point where
  x : Int
  y : Int
deriving DecidableEq, Repr

/-- Componentwise addition, the `Add` impl of the `point` crate. -/
def Point.add (a b : Point) : Point :=
  ⟨a.x + b.x, a.y + b.y⟩

/-- `Window<T>`: `top_left` anchor plus row-major grid `data`. -/
structure Window (T : Type) where
  top_left : Point
  data : List (List T)
deriving DecidableEq, Repr

/-- `HashMap::get` on the association-list model. -/
def mapGet {T : Type} : List (Point × T) → Point → Option T
  | [], _ => none
  | (q, v) :: rest, p => if q = p then some v else mapGet rest p

/-- `HashMap::insert` on the association-list model: replace in place, or
append a fresh key. -/
def mapInsert {T : Type} : List (Point × T) → Point → T → List (Point × T)
  | [], p, v => [(p, v)]
  | (q, w) :: rest, p, v => if q = p then (q, v) :: rest else (q, w) :: mapInsert rest p v

/-- `Container<T>`: the window list in paint order, the flattened sparse
buffer, and the change list of the most recent `refresh`. -/
structure Container (T : Type) where
  windows : List (Window T)
  buffer : List (Point × T)
  changed : List Point
deriving DecidableEq, Repr

/-- `Container::new`. -/
def Container.new (T : Type) : Container T :=
  { windows := [], buffer := [], changed := [] }

/-- `Container::add_win`. -/
def Container.add_win {T : Type} (c : Container T) (win : Window T) : Container T :=
  { c with windows := c.windows ++ [win] }

/-- The body of `refresh`'s innermost loop: look up `p` in the buffer being
built, and when the entry is missing or differs insert the new value and push
`p` onto the change list (`prev.is_none() || prev.unwrap() != ch`). -/
def refreshStep {T : Type} [DecidableEq T] (st : List (Point × T) × List Point)
    (p : Point) (ch : T) : List (Point × T) × List Point :=
  let prev := mapGet st.1 p
  if prev = none ∨ prev ≠ some ch then (mapInsert st.1 p ch, st.2 ++ [p]) else st

/-- `for (x, ch) in row.iter().enumerate()`, with the running column index
made explicit.  The absolute position is `Point::new(x, y) + top_left`. -/
def refreshRowGo {T : Type} [DecidableEq T] (tl : Point) (y : Nat) :
    Nat → List T → List (Point × T) × List Point → List (Point × T) × List Point
  | _, [], st => st
  | x, ch :: rest, st =>
      refreshRowGo tl y (x + 1) rest (refreshStep st (Point.add ⟨(x : Int), (y : Int)⟩ tl) ch)

/-- `for (y, row) in win.data.iter().enumerate()`, with the running row index
made explicit. -/
def refreshWinGo {T : Type} [DecidableEq T] (tl : Point) :
    Nat → List (List T) → List (Point × T) × List Point → List (Point × T) × List Point
  | _, [], st => st
  | y, row :: rest, st => refreshWinGo tl (y + 1) rest (refreshRowGo tl y 0 row st)

/-- Scan one window into the state. -/
def refreshWin {T : Type} [DecidableEq T] (st : List (Point × T) × List Point)
    (win : Window T) : List (Point × T) × List Point :=
  refreshWinGo win.top_left 0 win.data st

/-- `Container::refresh`: the buffer is cleared and the change list reset
*before* the scan (`self.buffer.clear(); self.changed = Vec::new();`), then
every window is scanned in paint order. -/
def Container.refresh {T : Type} [DecidableEq T] (c : Container T) : Container T :=
  let st := c.windows.foldl refreshWin ([], [])
  { windows := c.windows, buffer := st.1, changed := st.2 }

/-- `Container::changed` (a read-only view of the change list). -/
def Container.changedList {T : Type} (c : Container T) : List Point :=
  c.changed

/-- `Container::get_buffer` (a read-only view of the buffer). -/
def Container.get_buffer {T : Type} (c : Container T) : List (Point × T) :=
  c.buffer

/-- `Container::to_string_with_default`, modelled as the grid of cell values
it emits: for `y in 0..hgt`, for `x in 0..wid`, the buffer value at
`Point::new(x, y)` when present and `default` otherwise.  (The Rust function
renders this grid row-major, each cell through `Display`, with one line break
per row; `wid` and `hgt` are `u16` values, cast losslessly to `i32`.) -/
def Container.to_string_with_default {T : Type} (c : Container T)
    (wid hgt : Nat) (default : T) : List (List T) :=
  (List.range hgt).map (fun (y : Nat) => (List.range wid).map (fun (x : Nat) =>
    match mapGet c.buffer ⟨(x : Int), (y : Int)⟩ with
    | some ch => ch
    | none => default))

/-- Rust `str::lines` on a character list: split on a line feed, stripping one
carriage return right before it; a final segment without a terminator is kept
as-is, and an empty final segment produces no line. -/
def linesGo (cur : List Char) : List Char → List (List Char)
  | [] => if cur.isEmpty then [] else [cur]
  | c :: rest =>
      if c = '\n' then
        (if cur.getLast? = some '\r' then cur.dropLast else cur) :: linesGo [] rest
      else
        linesGo (cur ++ [c]) rest

/-- Rust `str::lines` of the input string, each line as its character list. -/
def rustLines (s : String) : List (List Char) :=
  linesGo [] s.data

/-- The loop of `write_str`: `self.data[cur_idx].extend(line.chars());
cur_idx += 1; self.data.push(Vec::new());` for each line. -/
def writeStrGo : List (List Char) → Nat → List (List Char) → List (List Char)
  | data, _, [] => data
  | data, idx, line :: rest =>
      writeStrGo ((data.set idx (data.getD idx [] ++ line)) ++ [[]]) (idx + 1) rest

/-- `<Window<char> as fmt::Write>::write_str`: push an empty row when the grid
is empty, then run the line loop starting at the last row index. -/
def Window.write_str (w : Window Char) (s : String) : Window Char :=
  let data := if w.data.length = 0 then w.data ++ [[]] else w.data
  { w with data := writeStrGo data (data.length - 1) (rustLines s) }

/-- `Window::outline_with`: wrap every row in the border value, then read
`data[0].len()` and `data.last().unwrap().len()` — both of which fail on a
zero-row grid, modelled by `none` — and add the top and bottom border rows. -/
def Window.outline_with {T : Type} (w : Window T) (ch : T) : Option (Window T) :=
  let data := w.data.map (fun row => ch :: (row ++ [ch]))
  match data.head?, data.getLast? with
  | some first, some last =>
      some { w with
             data := (List.replicate first.length ch :: data) ++
               [List.replicate last.length ch] }
  | _, _ => none

/-! ### Derived cell-lookup functions (specification helpers)

`rowCellAt`, `winCellAtGo`, `Window.cellAt` and `winsCellAt` compute, purely
from the window list, which cell value ends up at an absolute position; they
are the yardstick the buffer produced by `refresh` is proved against. -/

/-- The value the row `row` (starting at column index `x`) of the row with
index `y` of a window anchored at `tl` places at the absolute position `q`. -/
def rowCellAt {T : Type} (tl : Point) (y : Nat) : Nat → List T → Point → Option T
  | _, [], _ => none
  | x, ch :: rest, q =>
      if q = Point.add ⟨(x : Int), (y : Int)⟩ tl then some ch
      else rowCellAt tl y (x + 1) rest q

/-- The value the rows `rows` (starting at row index `y`) of a window anchored
at `tl` place at the absolute position `q`. -/
def winCellAtGo {T : Type} (tl : Point) : Nat → List (List T) → Point → Option T
  | _, [], _ => none
  | y, row :: rest, q =>
      match rowCellAt tl y 0 row q with
      | some v => some v
      | none => winCellAtGo tl (y + 1) rest q

/-- The value the window `w` places at the absolute position `q`. -/
def Window.cellAt {T : Type} (w : Window T) (q : Point) : Option T :=
  winCellAtGo w.top_left 0 w.data q

/-- A window covers an absolute position when some cell of it lands there. -/
def covers {T : Type} (w : Window T) (q : Point) : Prop :=
  (w.cellAt q).isSome = true

instance {T : Type} (w : Window T) (q : Point) : Decidable (covers w q) := by
  unfold covers; infer_instance

/-- The value a window list in paint order leaves at `q`: the last window
covering `q` wins. -/
def winsCellAt {T : Type} : List (Window T) → Point → Option T
  | [], _ => none
  | w :: rest, q =>
      match winsCellAt rest q with
      | some v => some v
      | none => w.cellAt q

/-- Right-biased-first choice on options (`a` if present, else `b`). -/
def ore {T : Type} (a b : Option T) : Option T :=
  match a with
  | some v => some v
  | none => b

/-- The claim's description of `write_str` taken at its word (spec-modelled,
for refutation): every line becomes one new row appended after the current
last row, except that on an empty grid the first line lands on an implicit
empty first row; one trailing empty row is left. -/
def write_str_claimed (w : Window Char) (s : String) : Window Char :=
  let ls := rustLines s
  if w.data = [] then { w with data := ls ++ [[]] }
  else { w with data := w.data ++ ls ++ [[]] }

/-! ### Concrete fixtures used by witnesses and counterexamples -/

/-- Window A of the spec's end-to-end scenario: 2×2 grid of `'a'` at (0,0). -/
def winA : Window Char :=
  { top_left := ⟨0, 0⟩, data := [['a', 'a'], ['a', 'a']] }

/-- Window B of the spec's end-to-end scenario: 1×1 grid of `'b'` at (1,1). -/
def winB : Window Char :=
  { top_left := ⟨1, 1⟩, data := [['b']] }

/-- The end-to-end scenario container: A then B in a fresh container. -/
def cEx : Container Char :=
  (Container.new Char).add_win winA |>.add_win winB

/-- Two disjoint one-cell windows; removing the second frees position (5,5). -/
def cC6 : Container Char :=
  ⟨[⟨⟨0, 0⟩, [['a']]⟩, ⟨⟨5, 5⟩, [['b']]⟩], [], []⟩

/-! ### Basic lemmas about the map model and the scan -/

theorem ore_assoc {T : Type} (a b c : Option T) : ore (ore a b) c = ore a (ore b c) := by
  cases a <;> rfl

theorem mapGet_mapInsert {T : Type} (m : List (Point × T)) (p : Point) (v : T) (q : Point) :
    mapGet (mapInsert m p v) q = if p = q then some v else mapGet m q := by
  induction m with
  | nil => simp [mapGet, mapInsert]
  | cons hd rest ih =>
    obtain ⟨a, w⟩ := hd
    by_cases hap : a = p
    · subst hap
      by_cases haq : a = q <;> simp [mapGet, mapInsert, haq]
    · by_cases haq : a = q
      · subst haq
        have hpa : ¬ p = a := fun h => hap h.symm
        simp [mapGet, mapInsert, hap, hpa]
      · simp [mapGet, mapInsert, hap, haq, ih]

theorem refreshStep_fst {T : Type} [DecidableEq T]
    (st : List (Point × T) × List Point) (p : Point) (ch : T) (q : Point) :
    mapGet (refreshStep st p ch).1 q = if q = p then some ch else mapGet st.1 q := by
  show mapGet (if mapGet st.1 p = none ∨ mapGet st.1 p ≠ some ch then
      (mapInsert st.1 p ch, st.2 ++ [p]) else st).1 q = _
  by_cases h : mapGet st.1 p = none ∨ mapGet st.1 p ≠ some ch
  · rw [if_pos h]
    show mapGet (mapInsert st.1 p ch) q = _
    rw [mapGet_mapInsert]
    by_cases hqp : q = p
    · rw [if_pos hqp.symm, if_pos hqp]
    · rw [if_neg (fun hh => hqp hh.symm), if_neg hqp]
  · rw [if_neg h]
    push_neg at h
    by_cases hqp : q = p
    · rw [if_pos hqp, hqp, h.2]
    · rw [if_neg hqp]

theorem rowCellAt_eq_none_of_xlt {T : Type} (tl : Point) (y : Nat) (q : Point) :
    ∀ (row : List T) (x0 : Nat), q.x < tl.x + (x0 : Int) →
      rowCellAt tl y x0 row q = none := by
  intro row
  induction row with
  | nil => intro x0 _; rfl
  | cons ch rest ih =>
    intro x0 hx
    have hne : q ≠ Point.add ⟨(x0 : Int), (y : Int)⟩ tl := by
      intro hq
      rw [hq] at hx
      simp [Point.add] at hx
      omega
    rw [rowCellAt, if_neg hne]
    exact ih (x0 + 1) (by push_cast; omega)

theorem rowCellAt_some_y {T : Type} (tl : Point) (y : Nat) (q : Point) :
    ∀ (row : List T) (x0 : Nat) (v : T), rowCellAt tl y x0 row q = some v →
      q.y = (y : Int) + tl.y := by
  intro row
  induction row with
  | nil => intro x0 v h; exact absurd h (by simp [rowCellAt])
  | cons ch rest ih =>
    intro x0 v h
    rw [rowCellAt] at h
    by_cases hq : q = Point.add ⟨(x0 : Int), (y : Int)⟩ tl
    · rw [hq]; simp [Point.add]
    · rw [if_neg hq] at h
      exact ih (x0 + 1) v h

theorem rowCellAt_eq_none_of_yne {T : Type} (tl : Point) (y : Nat) (q : Point)
    (row : List T) (x0 : Nat) (hy : q.y ≠ (y : Int) + tl.y) :
    rowCellAt tl y x0 row q = none := by
  cases h : rowCellAt tl y x0 row q with
  | none => rfl
  | some v => exact absurd (rowCellAt_some_y tl y q row x0 v h) hy

theorem rowCellAt_get {T : Type} (tl : Point) (y : Nat) :
    ∀ (row : List T) (x0 x : Nat),
      rowCellAt tl y x0 row (Point.add ⟨((x0 + x : Nat) : Int), (y : Int)⟩ tl) = row[x]? := by
  intro row
  induction row with
  | nil => intro x0 x; simp [rowCellAt]
  | cons ch rest ih =>
    intro x0 x
    cases x with
    | zero =>
      rw [rowCellAt, if_pos (by simp)]
      simp
    | succ x' =>
      rw [rowCellAt, if_neg (by simp [Point.add, Point.mk.injEq]; omega)]
      have := ih (x0 + 1) x'
      rw [show x0 + 1 + x' = x0 + (x' + 1) by omega] at this
      rw [this]
      simp

theorem refreshRowGo_fst {T : Type} [DecidableEq T] (tl : Point) (y : Nat) :
    ∀ (row : List T) (x0 : Nat) (st : List (Point × T) × List Point) (q : Point),
      mapGet (refreshRowGo tl y x0 row st).1 q =
        ore (rowCellAt tl y x0 row q) (mapGet st.1 q) := by
  intro row
  induction row with
  | nil => intro x0 st q; rfl
  | cons ch rest ih =>
    intro x0 st q
    rw [refreshRowGo, ih, refreshStep_fst, rowCellAt]
    by_cases hq : q = Point.add ⟨(x0 : Int), (y : Int)⟩ tl
    · rw [if_pos hq, if_pos hq]
      rw [rowCellAt_eq_none_of_xlt tl y q rest (x0 + 1)
        (by rw [hq]; simp [Point.add]; omega)]
      rfl
    · rw [if_neg hq, if_neg hq]

theorem winCellAtGo_some_y_ge {T : Type} (tl : Point) (q : Point) :
    ∀ (rows : List (List T)) (y0 : Nat) (v : T),
      winCellAtGo tl y0 rows q = some v → (y0 : Int) + tl.y ≤ q.y := by
  intro rows
  induction rows with
  | nil => intro y0 v h; exact absurd h (by simp [winCellAtGo])
  | cons row rest ih =>
    intro y0 v h
    rw [winCellAtGo] at h
    cases hr : rowCellAt tl y0 0 row q with
    | some w =>
      rw [rowCellAt_some_y tl y0 q row 0 w hr]
    | none =>
      rw [hr] at h
      have := ih (y0 + 1) v h
      push_cast at this ⊢
      omega

theorem winCellAtGo_eq_none_of_ylt {T : Type} (tl : Point) (q : Point)
    (rows : List (List T)) (y0 : Nat) (hy : q.y < (y0 : Int) + tl.y) :
    winCellAtGo tl y0 rows q = none := by
  cases h : winCellAtGo tl y0 rows q with
  | none => rfl
  | some v => exact absurd (winCellAtGo_some_y_ge tl q rows y0 v h) (by omega)

theorem refreshWinGo_fst {T : Type} [DecidableEq T] (tl : Point) :
    ∀ (rows : List (List T)) (y0 : Nat) (st : List (Point × T) × List Point) (q : Point),
      mapGet (refreshWinGo tl y0 rows st).1 q =
        ore (winCellAtGo tl y0 rows q) (mapGet st.1 q) := by
  intro rows
  induction rows with
  | nil => intro y0 st q; rfl
  | cons row rest ih =>
    intro y0 st q
    rw [refreshWinGo, ih, refreshRowGo_fst, winCellAtGo]
    cases hr : rowCellAt tl y0 0 row q with
    | some w =>
      have hy : q.y = (y0 : Int) + tl.y := rowCellAt_some_y tl y0 q row 0 w hr
      rw [winCellAtGo_eq_none_of_ylt tl q rest (y0 + 1) (by push_cast; omega)]
      rfl
    | none => rfl

theorem refreshWin_fst {T : Type} [DecidableEq T]
    (st : List (Point × T) × List Point) (w : Window T) (q : Point) :
    mapGet (refreshWin st w).1 q = ore (w.cellAt q) (mapGet st.1 q) :=
  refreshWinGo_fst w.top_left w.data 0 st q

theorem winCellAtGo_get {T : Type} (tl : Point) :
    ∀ (rows : List (List T)) (y0 y x : Nat),
      winCellAtGo tl y0 rows (Point.add ⟨(x : Int), ((y0 + y : Nat) : Int)⟩ tl) =
        (rows[y]?).bind (fun row => row[x]?) := by
  intro rows
  induction rows with
  | nil => intro y0 y x; simp [winCellAtGo]
  | cons row rest ih =>
    intro y0 y x
    cases y with
    | zero =>
      rw [winCellAtGo]
      have h0 : rowCellAt tl y0 0 row (Point.add ⟨(x : Int), ((y0 + 0 : Nat) : Int)⟩ tl)
          = row[x]? := by
        have := rowCellAt_get tl y0 row 0 x
        simpa using this
      rw [h0]
      cases hx : row[x]? with
      | some v => simp [hx]
      | none =>
        rw [winCellAtGo_eq_none_of_ylt tl _ rest (y0 + 1)
          (by simp only [Point.add]; push_cast; omega)]
        simp [hx]
    | succ y' =>
      rw [winCellAtGo]
      rw [rowCellAt_eq_none_of_yne tl y0 _ row 0
        (by simp [Point.add, Point.mk.injEq]; omega)]
      have := ih (y0 + 1) y' x
      rw [show y0 + 1 + y' = y0 + (y' + 1) by omega] at this
      rw [this]
      simp

theorem Window.cellAt_get {T : Type} (w : Window T) (y x : Nat) (row : List T) (v : T)
    (hrow : w.data[y]? = some row) (hcell : row[x]? = some v) :
    w.cellAt (Point.add ⟨(x : Int), (y : Int)⟩ w.top_left) = some v := by
  have := winCellAtGo_get w.top_left w.data 0 y x
  simp only [Nat.zero_add] at this
  rw [Window.cellAt, this, hrow]
  simpa using hcell

theorem foldl_refreshWin_fst {T : Type} [DecidableEq T] :
    ∀ (ws : List (Window T)) (st : List (Point × T) × List Point) (q : Point),
      mapGet (ws.foldl refreshWin st).1 q = ore (winsCellAt ws q) (mapGet st.1 q) := by
  intro ws
  induction ws with
  | nil => intro st q; rfl
  | cons w rest ih =>
    intro st q
    rw [List.foldl_cons, ih, refreshWin_fst, winsCellAt]
    cases hr : winsCellAt rest q with
    | some v => rfl
    | none => rfl

theorem refresh_buffer_eq {T : Type} [DecidableEq T] (c : Container T) (q : Point) :
    mapGet c.refresh.buffer q = winsCellAt c.windows q := by
  show mapGet (c.windows.foldl refreshWin ([], [])).1 q = _
  rw [foldl_refreshWin_fst]
  cases h : winsCellAt c.windows q with
  | some v => rfl
  | none => rfl

/-- The scan invariant: the change list and the buffer keys agree. -/
def ScanInv {T : Type} (st : List (Point × T) × List Point) : Prop :=
  ∀ q, q ∈ st.2 ↔ (mapGet st.1 q).isSome = true

theorem refreshStep_inv {T : Type} [DecidableEq T]
    (st : List (Point × T) × List Point) (p : Point) (ch : T)
    (h : ScanInv st) : ScanInv (refreshStep st p ch) := by
  intro q
  have hfst := refreshStep_fst st p ch q
  show q ∈ (refreshStep st p ch).2 ↔ _
  rw [hfst]
  unfold refreshStep
  by_cases hc : mapGet st.1 p = none ∨ mapGet st.1 p ≠ some ch
  · rw [if_pos hc]
    show q ∈ st.2 ++ [p] ↔ _
    rw [List.mem_append, List.mem_singleton]
    by_cases hqp : q = p
    · simp [hqp]
    · simp [hqp, h q]
  · rw [if_neg hc]
    push_neg at hc
    by_cases hqp : q = p
    · subst hqp
      simp [h q, hc.2]
    · simp [hqp, h q]

theorem refreshRowGo_inv {T : Type} [DecidableEq T] (tl : Point) (y : Nat) :
    ∀ (row : List T) (x0 : Nat) (st : List (Point × T) × List Point),
      ScanInv st → ScanInv (refreshRowGo tl y x0 row st) := by
  intro row
  induction row with
  | nil => intro x0 st h; exact h
  | cons ch rest ih =>
    intro x0 st h
    exact ih (x0 + 1) _ (refreshStep_inv st _ ch h)

theorem refreshWinGo_inv {T : Type} [DecidableEq T] (tl : Point) :
    ∀ (rows : List (List T)) (y0 : Nat) (st : List (Point × T) × List Point),
      ScanInv st → ScanInv (refreshWinGo tl y0 rows st) := by
  intro rows
  induction rows with
  | nil => intro y0 st h; exact h
  | cons row rest ih =>
    intro y0 st h
    exact ih (y0 + 1) _ (refreshRowGo_inv tl y0 row 0 st h)

theorem foldl_refreshWin_inv {T : Type} [DecidableEq T] :
    ∀ (ws : List (Window T)) (st : List (Point × T) × List Point),
      ScanInv st → ScanInv (ws.foldl refreshWin st) := by
  intro ws
  induction ws with
  | nil => intro st h; exact h
  | cons w rest ih =>
    intro st h
    exact ih _ (refreshWinGo_inv w.top_left w.data 0 st h)

theorem refresh_changed_iff_buffer {T : Type} [DecidableEq T] (c : Container T) (q : Point) :
    q ∈ c.refresh.changed ↔ (mapGet c.refresh.buffer q).isSome = true := by
  have h0 : ScanInv (([], []) : List (Point × T) × List Point) := by
    intro q
    simp [mapGet]
  exact foldl_refreshWin_inv c.windows ([], []) h0 q

theorem refresh_changed_iff_covers {T : Type} [DecidableEq T] (c : Container T) (q : Point) :
    q ∈ c.refresh.changed ↔ (winsCellAt c.windows q).isSome = true := by
  rw [refresh_changed_iff_buffer, refresh_buffer_eq]

theorem winsCellAt_eq_none {T : Type} (q : Point) :
    ∀ (ws : List (Window T)), (∀ w ∈ ws, w.cellAt q = none) → winsCellAt ws q = none := by
  intro ws
  induction ws with
  | nil => intro _; rfl
  | cons w rest ih =>
    intro h
    rw [winsCellAt, ih (fun w' hw' => h w' (List.mem_cons_of_mem w hw'))]
    exact h w (List.mem_cons_self w rest)

theorem winsCellAt_isSome_iff {T : Type} (q : Point) :
    ∀ (ws : List (Window T)),
      (winsCellAt ws q).isSome = true ↔ ∃ w, w ∈ ws ∧ covers w q := by
  intro ws
  induction ws with
  | nil => simp [winsCellAt]
  | cons w rest ih =>
    rw [winsCellAt]
    cases hr : winsCellAt rest q with
    | some v =>
      simp only [Option.isSome_some, true_iff]
      obtain ⟨w', hw', hc⟩ := ih.mp (by rw [hr]; rfl)
      exact ⟨w', List.mem_cons_of_mem w hw', hc⟩
    | none =>
      rw [hr] at ih
      simp only [Option.isSome_none, Bool.false_eq_true, false_iff] at ih
      push_neg at ih
      constructor
      · intro h
        exact ⟨w, List.mem_cons_self w rest, h⟩
      · rintro ⟨w', hw', hc⟩
        rcases List.mem_cons.mp hw' with h | h
        · subst h; exact hc
        · exact absurd hc (ih w' h)

theorem winsCellAt_of_get {T : Type} (q : Point) (v : T) :
    ∀ (ws : List (Window T)) (i : Nat) (hi : i < ws.length),
      (ws.get ⟨i, hi⟩).cellAt q = some v →
      (∀ j (hj : j < ws.length), i < j → (ws.get ⟨j, hj⟩).cellAt q = none) →
      winsCellAt ws q = some v := by
  intro ws
  induction ws with
  | nil => intro i hi; exact absurd hi (by simp)
  | cons w rest ih =>
    intro i hi hget hlater
    cases i with
    | zero =>
      rw [winsCellAt, winsCellAt_eq_none q rest ?_]
      · exact hget
      · intro w' hw'
        obtain ⟨⟨k, hk⟩, hkeq⟩ := List.mem_iff_get.mp hw'
        have := hlater (k + 1) (by simpa using hk) (Nat.succ_pos k)
        rw [List.get_cons_succ] at this
        rw [← hkeq]
        exact this
    | succ i' =>
      rw [winsCellAt]
      have : winsCellAt rest q = some v := by
        apply ih i' (by simpa using hi)
        · rw [← List.get_cons_succ (a := w) (h := hi)]
          exact hget
        · intro j hj hij
          have := hlater (j + 1) (by simpa using hj) (by omega)
          rw [List.get_cons_succ] at this
          exact this
      rw [this]

theorem set_last_eq {α : Type} : ∀ (d : List α) (v : α), d ≠ [] →
    d.set (d.length - 1) v = d.dropLast ++ [v] := by
  intro d
  induction d with
  | nil => intro v h; exact absurd rfl h
  | cons a rest ih =>
    intro v _
    cases rest with
    | nil => rfl
    | cons b t =>
      have h2 := ih v (by simp)
      show a :: ((b :: t).set ((b :: t).length - 1) v) = a :: ((b :: t).dropLast ++ [v])
      rw [h2]

theorem getD_last_eq {α : Type} (e : α) : ∀ (d : List α), d ≠ [] →
    d.getD (d.length - 1) e = d.getLastD e := by
  intro d
  induction d with
  | nil => intro h; exact absurd rfl h
  | cons a rest ih =>
    intro _
    cases rest with
    | nil => rfl
    | cons b t =>
      have h2 := ih (by simp)
      show (b :: t).getD ((b :: t).length - 1) e = _
      rw [h2]
      simp [List.getLastD_cons]

theorem writeStrGo_eq : ∀ (ls : List (List Char)) (l : List Char) (d : List (List Char)),
    d ≠ [] →
    writeStrGo d (d.length - 1) (l :: ls) =
      d.dropLast ++ [d.getLastD [] ++ l] ++ ls ++ [[]] := by
  intro ls
  induction ls with
  | nil =>
    intro l d hd
    rw [writeStrGo, writeStrGo, set_last_eq d _ hd, getD_last_eq [] d hd]
    simp
  | cons l2 rest ih =>
    intro l d hd
    rw [writeStrGo, set_last_eq d _ hd, getD_last_eq [] d hd]
    have hidx : d.length - 1 + 1 =
        ((d.dropLast ++ [d.getLastD [] ++ l]) ++ [[]]).length - 1 := by
      simp
    rw [hidx, ih l2 ((d.dropLast ++ [d.getLastD [] ++ l]) ++ [[]]) (by simp)]
    rw [List.dropLast_concat]
    have hlast : ((d.dropLast ++ [d.getLastD [] ++ l]) ++ [[]]).getLastD ([] : List Char)
        = [] := by
      simp [List.getLastD_eq_getLast?]
    rw [hlast]
    simp

theorem to_string_row {T : Type} (c : Container T) (wid hgt : Nat) (d : T) (y : Nat)
    (hy : y < hgt) :
    (c.to_string_with_default wid hgt d)[y]? =
      some ((List.range wid).map (fun (x : Nat) =>
        match mapGet c.buffer ⟨(x : Int), (y : Int)⟩ with
        | some ch => ch
        | none => d)) := by
  rw [Container.to_string_with_default, List.getElem?_map, List.getElem?_range hy]
  rfl

/-! ### Claim theorems -/

/-- Claim C1 (refuted; the code contradicts its own documentation): the claim
says `refresh` compares each new value against the buffer from before the
refresh call and records each position at most once.  The code clears the
buffer first, so it compares against the buffer under construction: on the
second refresh of an unchanged one-cell container the pre-refresh buffer
already holds the same value at (0,0), yet (0,0) is recorded again; and with
two overlapping windows of different values, (0,0) is recorded twice within
one refresh. -/
theorem C1_code_eval :
    mapGet ((Container.mk [⟨⟨0, 0⟩, [['a']]⟩] [] [] : Container Char).refresh).buffer
      ⟨0, 0⟩ = some 'a' ∧
    ((Container.mk [⟨⟨0, 0⟩, [['a']]⟩] [] [] : Container Char).refresh.refresh).changed
      = [⟨0, 0⟩] ∧
    ((Container.mk [⟨⟨0, 0⟩, [['a']]⟩, ⟨⟨0, 0⟩, [['b']]⟩] [] [] :
      Container Char).refresh).changed = [⟨0, 0⟩, ⟨0, 0⟩] :=
  ⟨by decide, by decide, by decide⟩

/-- Claim C2 (refuted; the code contradicts its own documentation): refreshing
twice with no mutation must leave the second change list empty.  The buffers
do agree, but because the buffer is cleared before diffing the second change
list again holds every covered position. -/
theorem C2_code_eval :
    ((Container.mk [⟨⟨0, 0⟩, [['x', 'y']]⟩] [] [] : Container Char).refresh.refresh).changed
      = [⟨0, 0⟩, ⟨1, 0⟩] ∧
    ((Container.mk [⟨⟨0, 0⟩, [['x', 'y']]⟩] [] [] : Container Char).refresh.refresh).changed
      ≠ [] ∧
    ((Container.mk [⟨⟨0, 0⟩, [['x', 'y']]⟩] [] [] : Container Char).refresh.refresh).buffer
      = ((Container.mk [⟨⟨0, 0⟩, [['x', 'y']]⟩] [] [] : Container Char).refresh).buffer :=
  ⟨by decide, by decide, by decide⟩

/-- Claim C3 (confirmed): after `refresh`, the buffer maps the absolute
position of cell (x, y) of the i-th window to that cell's value, provided no
window later in the paint order covers the position. -/
theorem C3_flatten {T : Type} [DecidableEq T] (c : Container T) (i : Nat)
    (hi : i < c.windows.length) (y x : Nat) (row : List T) (v : T)
    (hrow : (c.windows.get ⟨i, hi⟩).data[y]? = some row) (hcell : row[x]? = some v)
    (hlater : ∀ j (hj : j < c.windows.length), i < j →
      ¬ covers (c.windows.get ⟨j, hj⟩)
        (Point.add ⟨(x : Int), (y : Int)⟩ (c.windows.get ⟨i, hi⟩).top_left)) :
    mapGet c.refresh.buffer
      (Point.add ⟨(x : Int), (y : Int)⟩ (c.windows.get ⟨i, hi⟩).top_left) = some v := by
  rw [refresh_buffer_eq]
  apply winsCellAt_of_get _ v c.windows i hi
  · exact Window.cellAt_get _ y x row v hrow hcell
  · intro j hj hij
    have hnc := hlater j hj hij
    unfold covers at hnc
    cases h : (c.windows.get ⟨j, hj⟩).cellAt
        (Point.add ⟨(x : Int), (y : Int)⟩ (c.windows.get ⟨i, hi⟩).top_left) with
    | none => rfl
    | some w => exact absurd (by rw [h]; rfl) hnc

/-- Witness for C3 at a concrete input: cell (0, 1) of window A. -/
theorem C3_flatten_witness :
    ((winA.data)[1]? = some ['a', 'a'] ∧ (['a', 'a'] : List Char)[0]? = some 'a') ∧
    mapGet (Container.mk [winA] [] [] : Container Char).refresh.buffer
      (Point.add ⟨((0 : Nat) : Int), ((1 : Nat) : Int)⟩ winA.top_left) = some 'a' :=
  ⟨⟨by decide, by decide⟩,
   C3_flatten (Container.mk [winA] [] []) 0 (by decide) 1 0 ['a', 'a'] 'a'
     (by decide) (by decide)
     (by intro j hj hij; have hj1 : j < 1 := hj; omega)⟩

/-- Claim C4 (confirmed): with exactly the windows A then B, at a position
covered by both, the buffer after `refresh` holds B's value there. -/
theorem C4_paint_order {T : Type} [DecidableEq T] (c : Container T) (A B : Window T)
    (hwins : c.windows = [A, B]) (P : Point) (y x : Nat) (row : List T) (v : T)
    (_hA : covers A P)
    (hrow : B.data[y]? = some row) (hcell : row[x]? = some v)
    (hP : P = Point.add ⟨(x : Int), (y : Int)⟩ B.top_left) :
    mapGet c.refresh.buffer P = some v := by
  rw [refresh_buffer_eq, hwins]
  have hB : B.cellAt P = some v := by
    rw [hP]
    exact Window.cellAt_get B y x row v hrow hcell
  simp [winsCellAt, hB]

/-- Witness for C4: windows A and B of the end-to-end scenario overlap at
(1, 1) and B's value wins. -/
theorem C4_paint_order_witness :
    covers winA ⟨1, 1⟩ ∧ covers winB ⟨1, 1⟩ ∧
    mapGet cEx.refresh.buffer ⟨1, 1⟩ = some 'b' :=
  ⟨by decide, by decide,
   C4_paint_order cEx winA winB (by decide) ⟨1, 1⟩ 0 0 ['b'] 'b' (by decide)
     (by decide) (by decide) (by decide)⟩

/-- Counterexample to claim C5: on the first refresh of the end-to-end
scenario the change list has five entries, (1,1) twice — not four entries with
each covered position exactly once. -/
theorem C5_counterexample :
    cEx.refresh.changed = [⟨0, 0⟩, ⟨1, 0⟩, ⟨0, 1⟩, ⟨1, 1⟩, ⟨1, 1⟩] ∧
    cEx.refresh.changed ≠ [⟨0, 0⟩, ⟨1, 0⟩, ⟨0, 1⟩, ⟨1, 1⟩] ∧
    ¬ cEx.refresh.changed.Nodup :=
  ⟨by decide, by decide, by decide⟩

/-- Claim C5 as amended: on the first refresh of a fresh container the change
list contains exactly the covered positions as a set (a position recurs once
per later overlapping write whose value differs); in the end-to-end scenario
the buffer is as claimed and the change list has five entries in discovery
order, (1,1) appearing twice. -/
theorem C5_amended :
    (∀ (T : Type) [DecidableEq T] (ws : List (Window T)) (p : Point),
        p ∈ (Container.mk ws [] [] : Container T).refresh.changed ↔
          ∃ w, w ∈ ws ∧ covers w p) ∧
    (cEx.refresh.buffer = [(⟨0, 0⟩, 'a'), (⟨1, 0⟩, 'a'), (⟨0, 1⟩, 'a'), (⟨1, 1⟩, 'b')] ∧
     cEx.refresh.changed = [⟨0, 0⟩, ⟨1, 0⟩, ⟨0, 1⟩, ⟨1, 1⟩, ⟨1, 1⟩]) := by
  constructor
  · intro T _ ws p
    rw [refresh_changed_iff_covers]
    exact winsCellAt_isSome_iff p ws
  · exact ⟨by decide, by decide⟩

theorem mem_eraseIdx_get {α : Type} : ∀ (ws : List α) (i : Nat) (w : α),
    w ∈ ws.eraseIdx i → ∃ j, ∃ hj : j < ws.length, j ≠ i ∧ ws.get ⟨j, hj⟩ = w := by
  intro ws
  induction ws with
  | nil => intro i w h; simp [List.eraseIdx] at h
  | cons a t ih =>
    intro i w h
    cases i with
    | zero =>
      rw [List.eraseIdx] at h
      obtain ⟨⟨k, hk⟩, hkeq⟩ := List.mem_iff_get.mp h
      exact ⟨k + 1, by simpa using hk, by omega, by simpa using hkeq⟩
    | succ i' =>
      rw [List.eraseIdx] at h
      rcases List.mem_cons.mp h with h | h
      · exact ⟨0, by simp, by omega, by simpa using h.symm⟩
      · obtain ⟨j, hj, hne, heq⟩ := ih i' w h
        exact ⟨j + 1, by simpa using hj, by omega, by simpa using heq⟩

/-- Claim C6 (confirmed): remove the i-th window between two refreshes; every
position covered only by that window is absent from the new buffer and absent
from the new change list. -/
theorem C6_disappearance {T : Type} [DecidableEq T] (c : Container T) (i : Nat)
    (hi : i < c.windows.length) (p : Point)
    (_hcov : covers (c.windows.get ⟨i, hi⟩) p)
    (honly : ∀ j (hj : j < c.windows.length), j ≠ i →
      ¬ covers (c.windows.get ⟨j, hj⟩) p) :
    mapGet ({ c.refresh with windows := c.refresh.windows.eraseIdx i } :
        Container T).refresh.buffer p = none ∧
    p ∉ ({ c.refresh with windows := c.refresh.windows.eraseIdx i } :
        Container T).refresh.changed := by
  have hwnone : ∀ w ∈ c.refresh.windows.eraseIdx i, w.cellAt p = none := by
    intro w hw
    have hrw : c.refresh.windows = c.windows := rfl
    rw [hrw] at hw
    obtain ⟨j, hj, hne, heq⟩ := mem_eraseIdx_get c.windows i w hw
    have hnc := honly j hj hne
    unfold covers at hnc
    rw [← heq]
    cases h : (c.windows.get ⟨j, hj⟩).cellAt p with
    | none => rfl
    | some v => exact absurd (by rw [h]; rfl) hnc
  have hnone : winsCellAt (c.refresh.windows.eraseIdx i) p = none :=
    winsCellAt_eq_none p _ hwnone
  constructor
  · rw [refresh_buffer_eq]
    exact hnone
  · intro hmem
    rw [refresh_changed_iff_covers] at hmem
    rw [show ({ c.refresh with windows := c.refresh.windows.eraseIdx i } :
        Container T).windows = c.refresh.windows.eraseIdx i from rfl, hnone] at hmem
    simp at hmem

/-- Witness for C6: removing the window at (5,5) silently drops that position. -/
theorem C6_disappearance_witness :
    covers (cC6.windows.get ⟨1, by decide⟩) ⟨5, 5⟩ ∧
    mapGet ({ cC6.refresh with windows := cC6.refresh.windows.eraseIdx 1 } :
        Container Char).refresh.buffer ⟨5, 5⟩ = none ∧
    (⟨5, 5⟩ : Point) ∉ ({ cC6.refresh with windows := cC6.refresh.windows.eraseIdx 1 } :
        Container Char).refresh.changed := by
  have h := C6_disappearance cC6 1 (by decide) ⟨5, 5⟩ (by decide) (by decide)
  exact ⟨by decide, h.1, h.2⟩

/-- Claim C7 (confirmed): materializing with `to_string_with_default` yields
exactly `hgt` rows of exactly `wid` cells, the cell at (x, y) being the buffer
value there when present and the default otherwise.  (The Rust method takes
`&self`: neither the buffer nor the container is mutated, which the purely
functional model reflects.) -/
theorem C7_materialize {T : Type} (c : Container T) (wid hgt : Nat) (d : T) :
    (c.to_string_with_default wid hgt d).length = hgt ∧
    (∀ (y : Nat) (row : List T),
      (c.to_string_with_default wid hgt d)[y]? = some row → row.length = wid) ∧
    (∀ (x y : Nat), x < wid → y < hgt →
      ((c.to_string_with_default wid hgt d)[y]?.bind (fun row => row[x]?)) =
        some ((mapGet c.buffer ⟨(x : Int), (y : Int)⟩).getD d)) := by
  refine ⟨by simp [Container.to_string_with_default], ?_, ?_⟩
  · intro y row hrow
    by_cases hy : y < hgt
    · rw [to_string_row c wid hgt d y hy] at hrow
      injection hrow with hr
      rw [← hr]
      simp
    · rw [Container.to_string_with_default,
        List.getElem?_eq_none (by simpa using Nat.le_of_not_lt hy)] at hrow
      exact absurd hrow (by simp)
  · intro x y hx hy
    rw [to_string_row c wid hgt d y hy]
    simp only [Option.some_bind]
    rw [List.getElem?_map, List.getElem?_range hx]
    cases h : mapGet c.buffer ⟨(x : Int), (y : Int)⟩ <;> simp [h]

/-- Witness for C7: the end-to-end scenario materialized at 3×3 with a blank
default. -/
theorem C7_materialize_witness :
    (cEx.refresh.to_string_with_default 3 3 ' ').length = 3 ∧
    ((cEx.refresh.to_string_with_default 3 3 ' ')[1]?.bind (fun row => row[1]?))
      = some 'b' := by
  refine ⟨(C7_materialize cEx.refresh 3 3 ' ').1, ?_⟩
  have h := (C7_materialize cEx.refresh 3 3 ' ').2.2 1 1 (by decide) (by decide)
  rw [h]
  decide

/-- Counterexample to claim C8: on a non-empty grid the first line does not
become a new row — it is appended onto the existing last row. -/
theorem C8_counterexample :
    (Window.write_str ⟨⟨0, 0⟩, [['x']]⟩ ("ab")).data = [['x', 'a', 'b'], []] ∧
    (write_str_claimed ⟨⟨0, 0⟩, [['x']]⟩ ("ab")).data = [['x'], ['a', 'b'], []] ∧
    Window.write_str ⟨⟨0, 0⟩, [['x']]⟩ ("ab") ≠ write_str_claimed ⟨⟨0, 0⟩, [['x']]⟩ ("ab") :=
  ⟨by decide, by decide, by decide⟩

/-- Claim C8 as amended: when the input has at least one line, `write_str`
appends the first line onto the current last row (onto an implicit empty first
row when the grid is empty), each subsequent line becomes one new row, and one
trailing empty row is left. -/
theorem C8_amended (w : Window Char) (s : String) (l : List Char)
    (ls : List (List Char)) (h : rustLines s = l :: ls) :
    (w.write_str s).data =
      (if w.data = [] then [[]] else w.data).dropLast ++
        [(if w.data = [] then [[]] else w.data).getLastD [] ++ l] ++ ls ++ [[]] := by
  by_cases hd : w.data = []
  · have hdata : (w.write_str s).data = writeStrGo [[]] 0 (rustLines s) := by
      simp [Window.write_str, hd]
    rw [hdata, h, if_pos hd]
    have hg := writeStrGo_eq ls l [[]] (by simp)
    simpa using hg
  · have hlen : ¬ w.data.length = 0 := by
      simpa [List.length_eq_zero] using hd
    have hdata : (w.write_str s).data =
        writeStrGo w.data (w.data.length - 1) (rustLines s) := by
      simp [Window.write_str, hlen]
    rw [hdata, h, if_neg hd]
    exact writeStrGo_eq ls l w.data hd

/-- Witness for C8 (amended): writing two lines into an empty grid. -/
theorem C8_amended_witness :
    rustLines ("ab\ncd") = ['a', 'b'] :: [['c', 'd']] ∧
    (Window.write_str ⟨⟨0, 0⟩, []⟩ ("ab\ncd")).data = [['a', 'b'], ['c', 'd'], []] :=
  ⟨by decide,
   (C8_amended ⟨⟨0, 0⟩, []⟩ ("ab\ncd") ['a', 'b'] [['c', 'd']] (by decide)).trans
     (by decide)⟩

/-- Claim C9 (confirmed): `outline_with` succeeds on every window with at
least one row, and the zero-row window is exactly the failing input (modelled
as `none`, the out-of-bounds access). -/
theorem C9_outline_total {T : Type} :
    (∀ (w : Window T) (ch : T), w.data ≠ [] → (w.outline_with ch).isSome = true) ∧
    (∀ (w : Window T) (ch : T), w.data = [] → w.outline_with ch = none) := by
  constructor
  · intro w ch hw
    obtain ⟨l0, hl0⟩ : ∃ a,
        (w.data.map (fun row => ch :: (row ++ [ch]))).head? = some a := by
      cases hd : w.data with
      | nil => exact absurd hd hw
      | cons r rs => exact ⟨_, rfl⟩
    obtain ⟨l1, hl1⟩ : ∃ a,
        (w.data.map (fun row => ch :: (row ++ [ch]))).getLast? = some a := by
      apply Option.isSome_iff_exists.mp
      rw [List.getLast?_isSome]
      simpa using hw
    show (match (w.data.map (fun row => ch :: (row ++ [ch]))).head?,
        (w.data.map (fun row => ch :: (row ++ [ch]))).getLast? with
      | some first, some last =>
          some { w with
                 data := (List.replicate first.length ch ::
                     w.data.map (fun row => ch :: (row ++ [ch]))) ++
                   [List.replicate last.length ch] }
      | _, _ => none).isSome = true
    rw [hl0, hl1]
    rfl
  · intro w ch hw
    rcases w with ⟨tl, data⟩
    simp only at hw
    subst hw
    rfl

/-- Witness for C9: a one-row window outlines; the zero-row window fails. -/
theorem C9_outline_total_witness :
    (([['x']] : List (List Char)) ≠ [] ∧
     ((Window.mk ⟨0, 0⟩ [['x']] : Window Char).outline_with 'o').isSome = true) ∧
    (Window.mk ⟨0, 0⟩ ([] : List (List Char)) : Window Char).outline_with 'o' = none :=
  ⟨⟨by decide, C9_outline_total.1 ⟨⟨0, 0⟩, [['x']]⟩ 'o' (by decide)⟩,
   C9_outline_total.2 ⟨⟨0, 0⟩, []⟩ 'o' rfl⟩

/-- Claim C10 (confirmed): every position in the change list after a refresh
is a key of the buffer. -/
theorem C10_changed_in_buffer {T : Type} [DecidableEq T] (c : Container T) (p : Point)
    (h : p ∈ c.refresh.changed) : (mapGet c.refresh.buffer p).isSome = true :=
  (refresh_changed_iff_buffer c p).mp h

/-- Witness for C10: position (1,1) of the end-to-end scenario. -/
theorem C10_changed_in_buffer_witness :
    (⟨1, 1⟩ : Point) ∈ cEx.refresh.changed ∧
    (mapGet cEx.refresh.buffer ⟨1, 1⟩).isSome = true :=
  ⟨by decide, C10_changed_in_buffer cEx ⟨1, 1⟩ (by decide)⟩

end Windowed
